import Mathlib

set_option maxRecDepth 20000

/-!
Verification of `scripts/update_smart_contracts.py`.

The script is pure Python except for two external collaborators (HTTP
fetch and a Node.js crypto helper); those are modelled as opaque inputs
(`Option String` results).  All string processing in the script is over
ASCII identifiers and filenames, and the Lean `Char.toUpper`/`Char.toLower`
are ASCII-only, matching Python's `str.upper`/`str.lower`/`str.isupper`
on ASCII text.
-/

namespace StaticApi

/-! ### ASCII character helpers (Python `str` methods restricted to ASCII) -/

def isAsciiUpper (c : Char) : Bool := decide ('A' ≤ c) && decide (c ≤ 'Z')

def isAsciiLower (c : Char) : Bool := decide ('a' ≤ c) && decide (c ≤ 'z')

def isAsciiLetter (c : Char) : Bool := isAsciiUpper c || isAsciiLower c

def isAsciiDigit (c : Char) : Bool := decide ('0' ≤ c) && decide (c ≤ '9')

/-- Python `str.lower` (ASCII). -/
def pyLower (s : String) : String := String.mk (s.toList.map Char.toLower)

/-- Python `str.upper` (ASCII). -/
def pyUpper (s : String) : String := String.mk (s.toList.map Char.toUpper)

/-- Python `str.capitalize`: first character uppercased, rest lowercased. -/
def pyCapitalize (s : String) : String :=
  match s.toList with
  | [] => ""
  | c :: cs => String.mk (Char.toUpper c :: cs.map Char.toLower)

/-- Python `str.isupper` (ASCII): at least one cased character and no
lowercase cased character. -/
def pyIsUpper (s : String) : Bool :=
  s.toList.any isAsciiLetter && s.toList.all (fun c => !(isAsciiLower c))

/-! ### `split_camel_or_snake` (lines 69-77 of the script) -/

/-- Python `name.split(sep)` for a one-character separator. -/
def splitOnChar (sep : Char) : List Char → List (List Char)
  | [] => [[]]
  | c :: cs =>
    if c = sep then [] :: splitOnChar sep cs
    else
      match splitOnChar sep cs with
      | [] => [[c]]
      | g :: gs => (c :: g) :: gs

/-- The camel-case split `re.sub(r"(?<!^)(?=[A-Z])", " ", name).split()`:
a new group starts before every ASCII uppercase letter.  (A spurious empty
group at the start, which Python's `.split()` drops, is dropped later by
the alphanumeric-run extraction and the final nonempty filter.) -/
def camelGroups (cur : List Char) : List Char → List (List Char)
  | [] => [cur.reverse]
  | c :: cs =>
    if isAsciiUpper c then cur.reverse :: camelGroups [c] cs
    else camelGroups (c :: cur) cs

/-- State machine for `re.findall(r"[A-Za-z]+|\d+", p)`: maximal runs of
ASCII letters or of ASCII digits, other characters are separators.
The state carries the current run (`true` = digit run) reversed. -/
def alnumRunsAux (cur : Option (Bool × List Char)) : List Char → List (List Char)
  | [] =>
    match cur with
    | some run => [run.2.reverse]
    | none => []
  | c :: cs =>
    if isAsciiLetter c then
      match cur with
      | some (false, run) => alnumRunsAux (some (false, c :: run)) cs
      | some (true, run) => run.reverse :: alnumRunsAux (some (false, [c])) cs
      | none => alnumRunsAux (some (false, [c])) cs
    else if isAsciiDigit c then
      match cur with
      | some (true, run) => alnumRunsAux (some (true, c :: run)) cs
      | some (false, run) => run.reverse :: alnumRunsAux (some (true, [c])) cs
      | none => alnumRunsAux (some (true, [c])) cs
    else
      match cur with
      | some run => run.2.reverse :: alnumRunsAux none cs
      | none => alnumRunsAux none cs

def alnumRuns (cs : List Char) : List (List Char) := alnumRunsAux none cs

/-- `split_camel_or_snake`: split on underscores if any, else at camel-case
boundaries; then extract alphabetic/numeric runs and drop empty words. -/
def split_camel_or_snake (s : String) : List String :=
  let cs := s.toList
  let parts := if cs.contains '_' then splitOnChar '_' cs else camelGroups [] cs
  let words := ((parts.map alnumRuns).flatten).map (fun run => String.mk run)
  words.filter (fun w => decide (w ≠ ""))

/-! ### `title_with_small_words` (lines 79-100) -/

def SMALL_WORDS : List String :=
  ["a", "an", "the", "and", "but", "or", "nor", "so", "yet", "at", "by",
   "for", "from", "in", "into", "of", "on", "onto", "out", "over",
   "to", "up", "with", "as", "per", "via", "vs", "vs.", "off", "than",
   "till", "until", "past", "near", "down", "upon", "within",
   "without", "through", "about", "before", "after", "around", "behind",
   "below", "beneath", "beside", "between", "beyond",
   "during", "inside", "outside", "under", "underneath", "across",
   "along", "amid", "among", "despite", "except", "including",
   "like", "since", "toward", "towards", "regarding"]

/-- Body of the loop in `title_with_small_words`: `total` is `len(words)`,
`i` the index of word `w`. -/
def titleWord (total i : Nat) (w : String) : String :=
  let wl := pyLower w
  if pyIsUpper w ∧ 1 < w.length then w
  else if i ≠ 0 ∧ i ≠ total - 1 ∧ wl ∈ SMALL_WORDS then wl
  else pyCapitalize w

def title_with_small_words (words : List String) : String :=
  match words with
  | [] => ""
  | _ :: _ =>
    String.intercalate " " (words.enum.map (fun iw => titleWord words.length iw.1 iw.2))

def pretty_label_from_filename (stem : String) : String :=
  title_with_small_words (split_camel_or_snake stem)

def pretty_procedure_name (identifier : String) : String :=
  title_with_small_words (split_camel_or_snake identifier)

/-! ### `label_from_filename_with_q_rule` (lines 109-131) -/

def label_from_filename_with_q_rule (stem : String) : String :=
  match stem.toList with
  | [] => ""
  | c0 :: rest =>
    if Char.toLower c0 ≠ 'q' ∨ rest = [] then pretty_label_from_filename stem
    else
      match rest with
      | [] => pretty_label_from_filename stem
      | r0 :: tail =>
        if pyIsUpper stem then String.mk ('Q' :: Char.toUpper r0 :: tail.map Char.toLower)
        else String.mk ('Q' :: Char.toUpper r0 :: tail)

/-! ### `index_to_base56` (lines 250-261) -/

def base56Alphabet : List Char := "ABCDEFGHIJKLMNOP".toList

/-- The `while n > 0 and len(chars) < 56` loop; `fuel` is the remaining
room up to the 56-character cap, nibbles are taken least-significant first. -/
def nibbleChars : Nat → Nat → List Char
  | _, 0 => []
  | n, fuel + 1 =>
    if n = 0 then []
    else base56Alphabet.getD (n % 16) 'A' :: nibbleChars (n / 16) fuel

def index_to_base56 (idx : Int) : String :=
  if idx ≤ 0 then String.mk (List.replicate 56 'A')
  else
    let cs := nibbleChars idx.toNat 56
    String.mk ((cs ++ List.replicate (56 - cs.length) 'A').take 56)

/-! ### Address computation in `main` (lines 439-444)

`run_js_get_identity_from_index` shells out to Node; its result is
modelled as an opaque `Option String` (`none` = helper missing, Node
missing, or the subprocess failed).  `if identity and len(identity) == 60`
is Python truthiness: `None` and `""` are falsy. -/

def computeAddress (cidx : Int) (identity : Option String) : String :=
  match identity with
  | some s => if s ≠ "" ∧ s.length = 60 then s else index_to_base56 cidx
  | none => index_to_base56 cidx

/-! ### Name fallback in `main` (lines 434-437)

`stem = Path(basename).stem` (CPython `PurePath.stem`: strip the suffix
when the last dot is neither first nor last character), then
`name_value = idx_to_name.get(cidx, stem.upper())`.  The ordinal-to-name
map parsed from `contract_def.h` is abstracted as `Int → Option String`. -/

def lastDotIndex (cs : List Char) : Option Nat :=
  ((cs.enum.filter (fun ic => decide (ic.2 = '.'))).map (fun ic => ic.1)).getLast?

def pathStem (basename : String) : String :=
  let cs := basename.toList
  match lastDotIndex cs with
  | some i => if 0 < i ∧ i < cs.length - 1 then String.mk (cs.take i) else basename
  | none => basename

def freshName (idxToName : Int → Option String) (cidx : Int) (basename : String) : String :=
  match idxToName cidx with
  | some s => s
  | none => pyUpper (pathStem basename)

/-! ### Data model

A procedure entry `{id, name}` and a contract descriptor row.  Field
semantics chosen to match the JSON dictionaries the script manipulates:
`name`/`filename` are `Option` (`none` = key absent or non-string value),
`label`/`address` are plain strings with `""` standing for
absent-or-empty (the script only ever tests them by truthiness),
`contract_index` is `Option (Option Int)` (`none` = key absent,
`some none` = key present with JSON `null`). -/

structure Proc where
  id : Int
  name : String
deriving DecidableEq

@[reducible] def procIds (ps : List Proc) : List Int := ps.map (fun p => p.id)

@[reducible] def procLe (p q : Proc) : Prop := p.id ≤ q.id

instance : DecidableRel procLe := fun p q => inferInstanceAs (Decidable (p.id ≤ q.id))

instance : IsTotal Proc procLe := ⟨fun p q => Int.le_total p.id q.id⟩

instance : IsTrans Proc procLe := ⟨fun _ _ _ h1 h2 => le_trans h1 h2⟩

/-- Python's `list.sort(key=lambda x: x["id"])` / `sorted(items.keys())`:
a stable sort by id, modelled by the (stable) insertion sort. -/
def sortProcs (ps : List Proc) : List Proc := List.insertionSort procLe ps

@[ext]
structure Contract where
  filename : Option String
  name : Option String
  label : String
  github_url : String
  contract_index : Option (Option Int)
  address : String
  procedures : List Proc
deriving DecidableEq

/-! ### `normalize_procs_to_list` (lines 316-331, list branch)

The script builds `items : Dict[int, str]` (later assignment to the same
id overwrites the name) and emits `{"id": k, "name": items[k]}` for `k`
in ascending key order.  The insertion-ordered dict is modelled as an
association list with in-place overwrite; since its ids end up pairwise
distinct, the stable sort by id reproduces `sorted(items.keys())`. -/

def dictInsertProc (m : List Proc) (p : Proc) : List Proc :=
  if p.id ∈ procIds m then
    m.map (fun q => if q.id = p.id then { id := p.id, name := p.name } else q)
  else m ++ [p]

def normalize_procs_to_list (procs : List Proc) : List Proc :=
  sortProcs (procs.foldl dictInsertProc [])

/-! ### Procedure union inside `merge_contracts` (lines 368-376) -/

/-- The `for p in new_list: if p["id"] not in have: append` loop;
`seen` starts as the id set of the normalized existing list and `acc`
as that list itself. -/
def unionLoop (seen : List Int) (acc : List Proc) : List Proc → List Proc
  | [] => acc
  | p :: rest =>
    if p.id ∈ seen then unionLoop seen acc rest
    else unionLoop (p.id :: seen) (acc ++ [p]) rest

def unionProcs (exProcs newProcs : List Proc) : List Proc :=
  let exList := normalize_procs_to_list exProcs
  let newList := normalize_procs_to_list newProcs
  sortProcs (unionLoop (procIds exList) exList newList)

/-! ### `merge_contracts` (lines 341-378) and `sort_contracts` (380-384) -/

/-- The in-place update of an existing entry `ex` from a fresh entry `new`
(lines 357-376).  The Python statements are sequential, but each guard
reads only fields the earlier statements never write, so the net effect
is the field-wise update below (kept in source order via the `let` chain). -/
def mergeInto (new ex : Contract) : Contract :=
  let ex1 := match new.name with
    | some s => { ex with name := some s }
    | none => ex
  let ex2 := match new.contract_index with
    | some v => { ex1 with contract_index := some v }
    | none => ex1
  let ex3 := if new.address ≠ "" then { ex2 with address := new.address } else ex2
  let ex4 := if ex3.label = "" then { ex3 with label := new.label } else ex3
  { ex4 with procedures := unionProcs ex4.procedures new.procedures }

/-- A fresh entry appended verbatim, procedures normalized (line 350). -/
def normalizeEntry (c : Contract) : Contract :=
  { c with procedures := normalize_procs_to_list c.procedures }

/-- `by_filename[fname]` always aliases the LAST element of the mutable
list whose filename is `fname` (the dict is built last-wins and appended
entries go at the end), so updating through the dict updates that element. -/
def updateLast (p : Contract → Prop) [DecidablePred p] (g : Contract → Contract) :
    List Contract → List Contract
  | [] => []
  | x :: xs =>
    if ∃ y ∈ xs, p y then x :: updateLast p g xs
    else if p x then g x :: xs
    else x :: xs

/-- One iteration of the `for new in fresh` loop. -/
def mergeOne (acc : List Contract) (new : Contract) : List Contract :=
  match new.filename with
  | none => acc
  | some fname =>
    if ∃ c ∈ acc, c.filename = some fname then
      updateLast (fun c => c.filename = some fname) (mergeInto new) acc
    else acc ++ [normalizeEntry new]

def merge_contracts (existing fresh : List Contract) : List Contract :=
  fresh.foldl mergeOne existing

/-- Sort key of `sort_contracts`: the contract index when present and
non-null, else the float sentinel `1e9` (exactly the integer `10^9`;
Python compares ints against this float exactly). -/
def sortKey (c : Contract) : Int :=
  match c.contract_index with
  | some (some n) => n
  | _ => 1000000000

@[reducible] def contractLe (a b : Contract) : Prop := sortKey a ≤ sortKey b

instance : DecidableRel contractLe := fun a b => inferInstanceAs (Decidable (sortKey a ≤ sortKey b))

instance : IsTotal Contract contractLe := ⟨fun a b => Int.le_total (sortKey a) (sortKey b)⟩

instance : IsTrans Contract contractLe := ⟨fun _ _ _ h1 h2 => le_trans h1 h2⟩

/-- Python `sorted(contracts, key=...)` is a stable sort, modelled by the
(stable) insertion sort on the same key. -/
def sort_contracts (contracts : List Contract) : List Contract :=
  List.insertionSort contractLe contracts

/-- The descriptor has no usable contract index: the key is absent or null. -/
@[reducible] def lacksIndex (c : Contract) : Prop := c.contract_index.bind id = none

/-- The data-model invariant of the persisted collection: string filenames
are pairwise distinct. -/
@[reducible] def distinctFilenames (l : List Contract) : Prop :=
  (l.filterMap (fun c => c.filename)).Nodup

/-- Shape invariants of a fresh extraction list as `main` builds it
(lines 412-456): one entry per basename (distinct string filenames), a
string name, an integer contract index, a non-empty address, and
procedure ids already deduplicated. -/
@[reducible] def pipelineShaped (F : List Contract) : Prop :=
  (F.map (fun c => c.filename)).Nodup ∧
  ∀ f ∈ F, f.filename ≠ none ∧ f.name ≠ none ∧
    f.contract_index.bind id ≠ none ∧ f.address ≠ "" ∧
    (procIds f.procedures).Nodup

/-! ### Procedure extraction loop in `main` (lines 425-432)

`find_registers` returns the regex matches in textual order; that match
list (id, identifier) is the input here.  The loop keeps the first
occurrence of each id, then sorts by id. -/

def dedupRegs (seen : List Int) : List (Int × String) → List Proc
  | [] => []
  | r :: rest =>
    if r.1 ∈ seen then dedupRegs seen rest
    else { id := r.1, name := pretty_procedure_name r.2 } :: dedupRegs (r.1 :: seen) rest

def extractProcs (regs : List (Int × String)) : List Proc :=
  sortProcs (dedupRegs [] regs)

/-! ### Concrete sample data used by witnesses and counterexamples -/

def lackingEntry : Contract :=
  { filename := some "a.h", name := none, label := "", github_url := "",
    contract_index := none, address := "", procedures := [] }

def hugeIndexEntry : Contract :=
  { filename := some "b.h", name := none, label := "", github_url := "",
    contract_index := some (some 2000000000), address := "", procedures := [] }

def smallIndexEntry : Contract :=
  { filename := some "c.h", name := none, label := "", github_url := "",
    contract_index := some (some 5), address := "", procedures := [] }

def persistedDemo : Contract :=
  { filename := some "Qx.h", name := some "QX", label := "Custom", github_url := "u",
    contract_index := some (some 1), address := "OLD", procedures := [⟨1, "Old"⟩] }

def freshDemo : Contract :=
  { filename := some "Qbay.h", name := some "QBAY", label := "QBay", github_url := "g",
    contract_index := some (some 5), address := "ADDR", procedures := [⟨2, "Foo"⟩] }

def freshDemoQx : Contract :=
  { filename := some "Qx.h", name := some "QX", label := "QX", github_url := "g",
    contract_index := some (some 1), address := "NEW", procedures := [⟨2, "New"⟩] }

def freshOther : Contract :=
  { filename := some "Other.h", name := some "OTHER", label := "Other", github_url := "g",
    contract_index := some (some 9), address := "A", procedures := [] }

def demoRegs : List (Int × String) := [(2, "doStuff"), (1, "fooBar"), (2, "again")]

def demoIdentity : String := String.mk (List.replicate 60 'X')

/-! ## Helper lemmas -/

lemma length_mk (l : List Char) : (String.mk l).length = l.length := rfl

lemma nibbleChars_length_le : ∀ (n fuel : Nat), (nibbleChars n fuel).length ≤ fuel := by
  intro n fuel
  induction fuel generalizing n with
  | zero => exact Nat.le_refl 0
  | succ f ih =>
    have he : nibbleChars n (f + 1)
        = if n = 0 then [] else base56Alphabet.getD (n % 16) 'A' :: nibbleChars (n / 16) f := rfl
    rw [he]
    split
    · simp
    · simpa using ih (n / 16)

lemma index_to_base56_length (idx : Int) : (index_to_base56 idx).length = 56 := by
  unfold index_to_base56
  split
  · rfl
  · have h := nibbleChars_length_le idx.toNat 56
    simp only [length_mk, List.length_take, List.length_append, List.length_replicate]
    omega

lemma mk_ne_empty (c : Char) (cs : List Char) : String.mk (c :: cs) ≠ "" := by
  intro h
  exact List.noConfusion (congrArg String.data h)

lemma string_ne_empty_of_length {s : String} (h : s.length ≠ 0) : s ≠ "" := by
  intro he
  subst he
  exact h rfl

lemma pyUpper_length (s : String) : (pyUpper s).length = s.length := by
  show (String.mk (s.toList.map Char.toUpper)).length = s.length
  rw [length_mk, List.length_map]
  rfl

lemma pyUpper_ne_empty (s : String) (h : s ≠ "") : pyUpper s ≠ "" := by
  intro hc
  apply h
  obtain ⟨data⟩ := s
  cases data with
  | nil => rfl
  | cons c cs => exact absurd hc (mk_ne_empty _ _)

/-! ## Claim C1: the label rule literal cases -/

/-- C1: evaluation of the label function at the normative literal cases.
Five of the six hold as specified; the sixth shows the divergence: the
code maps the stem Qx to QX (it uppercases the second character
unconditionally), while the claim, the module docstring and the function
docstring all state Qx maps to Qx. -/
theorem label_rule_literal_cases :
    label_from_filename_with_q_rule "Qx" = "QX" ∧
    label_from_filename_with_q_rule "QUTIL" = "QUtil" ∧
    label_from_filename_with_q_rule "Qswap" = "QSwap" ∧
    label_from_filename_with_q_rule "QVAULT" = "QVault" ∧
    label_from_filename_with_q_rule "Qbay" = "QBay" ∧
    label_from_filename_with_q_rule "GeneralQuorumProposal" = "General Quorum Proposal" := by
  decide

/-! ## Claim C2: entries lacking an index sort last -/

/-- C2 counterexample: the claim fails as stated.  The sentinel for a
missing index is 1e9, so a present index of 2000000000 sorts AFTER an
index-less entry: with the index-less entry inserted first, the sorted
output keeps it first. -/
theorem sort_sentinel_counterexample :
    ¬ ((sort_contracts [lackingEntry, hugeIndexEntry]).Pairwise
        (fun a b => lacksIndex a → lacksIndex b)) := by
  intro h
  have h1 : sort_contracts [lackingEntry, hugeIndexEntry] = [lackingEntry, hugeIndexEntry] := by
    decide
  rw [h1] at h
  have h2 := (List.pairwise_cons.mp h).1 hugeIndexEntry (List.mem_cons_self _ _)
  exact absurd (h2 (by decide)) (by decide)

/-- C2 (amended): provided every present contract index is below the
sentinel 10^9, the sorted output places every descriptor lacking a
contract index after every descriptor that has one, regardless of the
insertion order of the input list. -/
theorem sort_missing_index_last (l : List Contract)
    (h : ∀ c ∈ l, ∀ n : Int, c.contract_index = some (some n) → n < 1000000000) :
    (sort_contracts l).Pairwise (fun a b => lacksIndex a → lacksIndex b) := by
  have hs : (sort_contracts l).Pairwise contractLe :=
    List.sorted_insertionSort contractLe l
  refine hs.imp_of_mem ?_
  intro a b ha hb hab hla
  by_contra hlb
  have hb2 : b ∈ l := (List.mem_insertionSort contractLe).mp hb
  obtain ⟨n, hn⟩ : ∃ n : Int, b.contract_index = some (some n) := by
    cases hcb : b.contract_index with
    | none => exact absurd (by simp [lacksIndex, hcb]) hlb
    | some o =>
      cases o with
      | none => exact absurd (by simp [lacksIndex, hcb]) hlb
      | some n => exact ⟨n, rfl⟩
  have hlt : n < 1000000000 := h b hb2 n hn
  have hka : sortKey a = 1000000000 := by
    cases hca : a.contract_index with
    | none => simp [sortKey, hca]
    | some o =>
      cases o with
      | none => simp [sortKey, hca]
      | some m => simp [lacksIndex, hca] at hla
  have hkb : sortKey b = n := by simp [sortKey, hn]
  have : (1000000000 : Int) ≤ n := by rw [← hka, ← hkb]; exact hab
  omega

/-- C2 witness: a list with one indexed and one index-less entry, the
index-less one inserted first, sorts with the index-less entry last. -/
theorem sort_missing_index_last_witness :
    (sort_contracts [lackingEntry, smallIndexEntry]).Pairwise
      (fun a b => lacksIndex a → lacksIndex b) :=
  sort_missing_index_last [lackingEntry, smallIndexEntry] (by
    intro c hc n hn
    rcases List.mem_cons.mp hc with rfl | hc2
    · simp [lackingEntry] at hn
    · rcases List.mem_cons.mp hc2 with rfl | hc3
      · simp [smallIndexEntry] at hn
        omega
      · exact absurd hc3 (List.not_mem_nil c))

/-! ## Claim C5: seed encoding -/

/-- C5: index 0 and every negative index give the all-zero-symbol
56-character string; index 1 gives symbol B followed by 55 zero-symbols;
the output length is always exactly 56. -/
theorem seed_encoding_spec :
    (∀ idx : Int, idx ≤ 0 → index_to_base56 idx = String.mk (List.replicate 56 'A')) ∧
    index_to_base56 1 = String.mk ('B' :: List.replicate 55 'A') ∧
    ∀ idx : Int, (index_to_base56 idx).length = 56 := by
  refine ⟨fun idx h => ?_, by decide, fun idx => index_to_base56_length idx⟩
  unfold index_to_base56
  rw [if_pos h]

/-- C5 witness at concrete indices. -/
theorem seed_encoding_spec_witness :
    index_to_base56 (-3) = String.mk (List.replicate 56 'A') ∧
    (index_to_base56 77).length = 56 :=
  ⟨seed_encoding_spec.1 (-3) (by decide), seed_encoding_spec.2.2 77⟩

/-! ## Claim C8: address computation and fallback -/

/-- C8: the fresh address is the collaborator identity exactly when the
call succeeded with a 60-character string; otherwise (no result, or a
result of the wrong length, including the empty string) it is the
56-character seed; in all cases the address is non-empty. -/
theorem address_fallback_spec (cidx : Int) (identity : Option String) :
    (∀ s, identity = some s → s.length = 60 → computeAddress cidx identity = s) ∧
    (∀ s, identity = some s → s.length ≠ 60 →
      computeAddress cidx identity = index_to_base56 cidx) ∧
    (identity = none → computeAddress cidx identity = index_to_base56 cidx) ∧
    (index_to_base56 cidx).length = 56 ∧
    computeAddress cidx identity ≠ "" := by
  refine ⟨?_, ?_, ?_, index_to_base56_length cidx, ?_⟩
  · intro s hs hlen
    subst hs
    have hne : s ≠ "" := string_ne_empty_of_length (by omega)
    simp only [computeAddress]
    rw [if_pos ⟨hne, hlen⟩]
  · intro s hs hlen
    subst hs
    simp only [computeAddress]
    rw [if_neg (fun hc => hlen hc.2)]
  · intro hs
    subst hs
    rfl
  · cases identity with
    | none =>
      exact string_ne_empty_of_length (by rw [show computeAddress cidx none = index_to_base56 cidx from rfl, index_to_base56_length]; decide)
    | some s =>
      simp only [computeAddress]
      split
      · next hcond => exact hcond.1
      · exact string_ne_empty_of_length (by rw [index_to_base56_length]; decide)

/-- C8 witness: a 60-character identity is used verbatim; a failed call
falls back to the seed. -/
theorem address_fallback_spec_witness :
    computeAddress 3 (some demoIdentity) = demoIdentity ∧
    computeAddress 3 none = index_to_base56 3 :=
  ⟨(address_fallback_spec 3 (some demoIdentity)).1 demoIdentity rfl (by decide),
   (address_fallback_spec 3 none).2.2.1 rfl⟩

/-! ## Claim C10: name fallback to the uppercased stem -/

/-- C10: when the contract index is not a key of the ordinal-to-name map,
the fresh name is the uppercased filename stem, and it is non-empty
whenever the stem is non-empty. -/
theorem fresh_name_fallback_upper (idxToName : Int → Option String) (cidx : Int)
    (basename : String) (h : idxToName cidx = none) :
    freshName idxToName cidx basename = pyUpper (pathStem basename) ∧
    (pathStem basename ≠ "" → freshName idxToName cidx basename ≠ "") := by
  have h1 : freshName idxToName cidx basename = pyUpper (pathStem basename) := by
    unfold freshName
    rw [h]
  exact ⟨h1, fun hne => h1 ▸ pyUpper_ne_empty _ hne⟩

/-- C10 witness: the file Foo.h with an index absent from the map gets
name FOO. -/
theorem fresh_name_fallback_upper_witness :
    freshName (fun _ => none) 7 "Foo.h" = pyUpper (pathStem "Foo.h") ∧
    freshName (fun _ => none) 7 "Foo.h" = "FOO" ∧
    (pathStem "Foo.h" ≠ "" → freshName (fun _ => none) 7 "Foo.h" ≠ "") :=
  ⟨(fresh_name_fallback_upper (fun _ => none) 7 "Foo.h" rfl).1,
   ((fresh_name_fallback_upper (fun _ => none) 7 "Foo.h" rfl).1).trans (by decide),
   (fresh_name_fallback_upper (fun _ => none) 7 "Foo.h" rfl).2⟩

/-! ## Merge machinery: updateLast -/

lemma updateLast_eq_self {p : Contract → Prop} [DecidablePred p] {g : Contract → Contract} :
    ∀ {l : List Contract}, (∀ x ∈ l, p x → g x = x) → updateLast p g l = l := by
  intro l
  induction l with
  | nil => intro _; rfl
  | cons x xs ih =>
    intro h
    unfold updateLast
    split
    · rw [ih (fun y hy => h y (List.mem_cons_of_mem _ hy))]
    · split
      · next hx => rw [h x (List.mem_cons_self _ _) hx]
      · rfl

lemma mem_updateLast {p : Contract → Prop} [DecidablePred p] {g : Contract → Contract} :
    ∀ {l : List Contract} {x : Contract}, x ∈ updateLast p g l →
      x ∈ l ∨ ∃ y ∈ l, p y ∧ x = g y := by
  intro l
  induction l with
  | nil => intro x hx; exact absurd hx (List.not_mem_nil x)
  | cons a as ih =>
    intro x hx
    unfold updateLast at hx
    split at hx
    · rcases List.mem_cons.mp hx with rfl | hx2
      · exact Or.inl (List.mem_cons_self _ _)
      · rcases ih hx2 with h1 | ⟨y, hy, hpy, hxy⟩
        · exact Or.inl (List.mem_cons_of_mem _ h1)
        · exact Or.inr ⟨y, List.mem_cons_of_mem _ hy, hpy, hxy⟩
    · split at hx
      · next hpa =>
        rcases List.mem_cons.mp hx with rfl | hx2
        · exact Or.inr ⟨a, List.mem_cons_self _ _, hpa, rfl⟩
        · exact Or.inl (List.mem_cons_of_mem _ hx2)
      · exact Or.inl hx

lemma mem_updateLast_of_not {p : Contract → Prop} [DecidablePred p] {g : Contract → Contract} :
    ∀ {l : List Contract} {c : Contract}, c ∈ l → ¬ p c → c ∈ updateLast p g l := by
  intro l
  induction l with
  | nil => intro c hc _; exact absurd hc (List.not_mem_nil c)
  | cons a as ih =>
    intro c hc hpc
    unfold updateLast
    split
    · rcases List.mem_cons.mp hc with rfl | hc2
      · exact List.mem_cons_self _ _
      · exact List.mem_cons_of_mem _ (ih hc2 hpc)
    · split
      · next hpa =>
        rcases List.mem_cons.mp hc with rfl | hc2
        · exact absurd hpa hpc
        · exact List.mem_cons_of_mem _ hc2
      · exact hc

lemma updateLast_filterMap {p : Contract → Prop} [DecidablePred p] {g : Contract → Contract}
    (hg : ∀ y, (g y).filename = y.filename) :
    ∀ (l : List Contract),
      (updateLast p g l).filterMap (fun c => c.filename)
        = l.filterMap (fun c => c.filename) := by
  intro l
  induction l with
  | nil => rfl
  | cons a as ih =>
    unfold updateLast
    split
    · simp only [List.filterMap_cons]
      rw [ih]
    · split
      · simp only [List.filterMap_cons, hg a]
      · rfl

/-! ## Merge machinery: distinct filenames -/

lemma distinct_tail {a : Contract} {as : List Contract}
    (h : distinctFilenames (a :: as)) : distinctFilenames as := by
  unfold distinctFilenames at h ⊢
  rw [List.filterMap_cons] at h
  cases ha : a.filename with
  | none => rw [ha] at h; exact h
  | some v => rw [ha] at h; exact (List.nodup_cons.mp h).2

lemma distinct_head_not_mem {a : Contract} {as : List Contract} {v : String}
    (h : distinctFilenames (a :: as)) (ha : a.filename = some v) :
    ∀ x ∈ as, x.filename ≠ some v := by
  intro x hx hc
  unfold distinctFilenames at h
  rw [List.filterMap_cons, ha] at h
  exact (List.nodup_cons.mp h).1 (List.mem_filterMap.mpr ⟨x, hx, hc⟩)

lemma eq_of_distinct_filename {s : String} :
    ∀ {l : List Contract}, distinctFilenames l →
      ∀ {c e : Contract}, c ∈ l → e ∈ l →
        c.filename = some s → e.filename = some s → c = e := by
  intro l
  induction l with
  | nil => intro _ c e hc _ _ _; exact absurd hc (List.not_mem_nil c)
  | cons a as ih =>
    intro h c e hc he hcs hes
    by_cases ha : a.filename = some s
    · have hno := distinct_head_not_mem h ha
      have hca : c = a := by
        rcases List.mem_cons.mp hc with rfl | hc2
        · rfl
        · exact absurd hcs (hno c hc2)
      have hea : e = a := by
        rcases List.mem_cons.mp he with rfl | he2
        · rfl
        · exact absurd hes (hno e he2)
      rw [hca, hea]
    · have hc2 : c ∈ as := by
        rcases List.mem_cons.mp hc with rfl | hc2
        · exact absurd hcs ha
        · exact hc2
      have he2 : e ∈ as := by
        rcases List.mem_cons.mp he with rfl | he2
        · exact absurd hes ha
        · exact he2
      exact ih (distinct_tail h) hc2 he2 hcs hes

lemma countP_filename_le_one {s : String} :
    ∀ {l : List Contract}, distinctFilenames l →
      l.countP (fun c => decide (c.filename = some s)) ≤ 1 := by
  intro l
  induction l with
  | nil => intro _; simp
  | cons a as ih =>
    intro h
    rw [List.countP_cons]
    by_cases ha : a.filename = some s
    · have hz : as.countP (fun c => decide (c.filename = some s)) = 0 := by
        apply List.countP_eq_zero.mpr
        intro x hx
        simp only [decide_eq_true_eq]
        exact distinct_head_not_mem h ha x hx
      simp [ha, hz]
    · have h2 := ih (distinct_tail h)
      simp only [ha, decide_eq_true_eq]
      simp
      omega

lemma updateLast_eq_map {p : Contract → Prop} [DecidablePred p] {g : Contract → Contract} :
    ∀ {l : List Contract}, l.countP (fun c => decide (p c)) ≤ 1 →
      updateLast p g l = l.map (fun x => if p x then g x else x) := by
  intro l
  induction l with
  | nil => intro _; rfl
  | cons a as ih =>
    intro h
    unfold updateLast
    rw [List.countP_cons] at h
    split
    · next hex =>
      obtain ⟨y, hy, hpy⟩ := hex
      have hpos : 0 < as.countP (fun c => decide (p c)) :=
        List.countP_pos_iff.mpr ⟨y, hy, by simpa using hpy⟩
      have hpa : ¬ p a := by
        intro hpa2
        have h2 : as.countP (fun c => decide (p c)) + 1 ≤ 1 := by
          simpa [hpa2] using h
        omega
      rw [List.map_cons, if_neg hpa, ih (by omega)]
    · next hnex =>
      have hall : ∀ x ∈ as, ¬ p x := by
        intro x hx hpx
        exact hnex ⟨x, hx, hpx⟩
      have hmap : as.map (fun x => if p x then g x else x) = as := by
        conv_rhs => rw [← List.map_id as]
        apply List.map_congr_left
        intro x hx
        rw [if_neg (hall x hx)]
        rfl
      split
      · next hpa => rw [List.map_cons, if_pos hpa, hmap]
      · next hpa => rw [List.map_cons, if_neg hpa, hmap]

/-! ## Merge machinery: mergeInto field formulas -/

lemma mergeInto_filename (new ex : Contract) : (mergeInto new ex).filename = ex.filename := by
  obtain ⟨a1, a2, a3, a4, a5, a6, a7⟩ := new
  obtain ⟨b1, b2, b3, b4, b5, b6, b7⟩ := ex
  simp only [mergeInto]
  cases a2 <;> cases a5 <;> split <;> split <;> rfl

lemma mergeInto_github (new ex : Contract) : (mergeInto new ex).github_url = ex.github_url := by
  obtain ⟨a1, a2, a3, a4, a5, a6, a7⟩ := new
  obtain ⟨b1, b2, b3, b4, b5, b6, b7⟩ := ex
  simp only [mergeInto]
  cases a2 <;> cases a5 <;> split <;> split <;> rfl

lemma mergeInto_name (new ex : Contract) :
    (mergeInto new ex).name = match new.name with | some s => some s | none => ex.name := by
  obtain ⟨a1, a2, a3, a4, a5, a6, a7⟩ := new
  obtain ⟨b1, b2, b3, b4, b5, b6, b7⟩ := ex
  simp only [mergeInto]
  cases a2 <;> cases a5 <;> split <;> split <;> rfl

lemma mergeInto_contract_index (new ex : Contract) :
    (mergeInto new ex).contract_index
      = match new.contract_index with | some v => some v | none => ex.contract_index := by
  obtain ⟨a1, a2, a3, a4, a5, a6, a7⟩ := new
  obtain ⟨b1, b2, b3, b4, b5, b6, b7⟩ := ex
  simp only [mergeInto]
  cases a2 <;> cases a5 <;> split <;> split <;> rfl

lemma mergeInto_address (new ex : Contract) :
    (mergeInto new ex).address = if new.address ≠ "" then new.address else ex.address := by
  obtain ⟨a1, a2, a3, a4, a5, a6, a7⟩ := new
  obtain ⟨b1, b2, b3, b4, b5, b6, b7⟩ := ex
  simp only [mergeInto]
  cases a2 <;> cases a5 <;> split <;> split <;> rfl

lemma mergeInto_label (new ex : Contract) :
    (mergeInto new ex).label = if ex.label = "" then new.label else ex.label := by
  obtain ⟨a1, a2, a3, a4, a5, a6, a7⟩ := new
  obtain ⟨b1, b2, b3, b4, b5, b6, b7⟩ := ex
  simp only [mergeInto]
  cases a2 <;> cases a5 <;> split <;> split <;> rfl

lemma mergeInto_procedures (new ex : Contract) :
    (mergeInto new ex).procedures = unionProcs ex.procedures new.procedures := by
  obtain ⟨a1, a2, a3, a4, a5, a6, a7⟩ := new
  obtain ⟨b1, b2, b3, b4, b5, b6, b7⟩ := ex
  simp only [mergeInto]
  cases a2 <;> cases a5 <;> split <;> split <;> rfl

/-! ## Procedure-list normalization lemmas -/

lemma procIds_append (a b : List Proc) : procIds (a ++ b) = procIds a ++ procIds b := by
  simp [procIds]

lemma dictInsertProc_ids_nodup {m : List Proc} {p : Proc} (h : (procIds m).Nodup) :
    (procIds (dictInsertProc m p)).Nodup := by
  unfold dictInsertProc
  split
  · have hids : procIds (m.map fun q => if q.id = p.id then { id := p.id, name := p.name } else q)
        = procIds m := by
      unfold procIds
      rw [List.map_map]
      apply List.map_congr_left
      intro q hq
      by_cases hq2 : q.id = p.id
      · simp [hq2]
      · simp [hq2]
    rw [hids]
    exact h
  · next hnm =>
    rw [procIds_append]
    refine List.Nodup.append h (List.nodup_singleton _) ?_
    intro x hx hx2
    have hxp : x = p.id := List.mem_singleton.mp (by simpa [procIds] using hx2)
    exact hnm (hxp ▸ hx)

lemma foldl_dictInsertProc_nodup : ∀ (l acc : List Proc), (procIds acc).Nodup →
    (procIds (l.foldl dictInsertProc acc)).Nodup := by
  intro l
  induction l with
  | nil => intro acc h; exact h
  | cons p t ih => intro acc h; exact ih _ (dictInsertProc_ids_nodup h)

lemma sortProcs_perm (l : List Proc) : List.Perm (sortProcs l) l := List.perm_insertionSort procLe l

lemma normalize_ids_nodup (l : List Proc) : (procIds (normalize_procs_to_list l)).Nodup := by
  have h1 := foldl_dictInsertProc_nodup l [] (by simp [procIds])
  have hperm := List.Perm.map (fun p : Proc => p.id)
    (sortProcs_perm (l.foldl dictInsertProc []))
  exact hperm.nodup_iff.mpr h1

lemma normalize_sorted (l : List Proc) : (normalize_procs_to_list l).Pairwise procLe :=
  List.sorted_insertionSort procLe _

lemma foldl_dictInsertProc_of_nodup : ∀ (l acc : List Proc),
    (procIds acc ++ procIds l).Nodup → l.foldl dictInsertProc acc = acc ++ l := by
  intro l
  induction l with
  | nil => intro acc _; simp
  | cons p t ih =>
    intro acc h
    have hnotin : p.id ∉ procIds acc := by
      have hdis := (List.nodup_append.mp h).2.2
      intro hc
      exact hdis hc (by simp [procIds])
    have hstep : dictInsertProc acc p = acc ++ [p] := by
      unfold dictInsertProc
      rw [if_neg hnotin]
    show (p :: t).foldl dictInsertProc acc = acc ++ p :: t
    rw [List.foldl_cons, hstep, ih (acc ++ [p]) ?_]
    · simp
    · rw [procIds_append]
      simpa [List.append_assoc, procIds] using h

lemma normalize_of_canonical {l : List Proc}
    (hs : l.Pairwise procLe) (hn : (procIds l).Nodup) :
    normalize_procs_to_list l = l := by
  unfold normalize_procs_to_list
  rw [foldl_dictInsertProc_of_nodup l [] (by simpa [procIds] using hn)]
  show sortProcs ([] ++ l) = l
  rw [List.nil_append]
  exact List.Sorted.insertionSort_eq hs

/-! ## unionLoop lemmas -/

lemma unionLoop_ids_nodup : ∀ (l : List Proc) (seen : List Int) (acc : List Proc),
    (procIds acc).Nodup → (∀ x ∈ procIds acc, x ∈ seen) →
    (procIds (unionLoop seen acc l)).Nodup := by
  intro l
  induction l with
  | nil => intro seen acc h _; exact h
  | cons p t ih =>
    intro seen acc h hsub
    unfold unionLoop
    split
    · exact ih seen acc h hsub
    · next hnot =>
      apply ih (p.id :: seen) (acc ++ [p])
      · rw [procIds_append]
        refine List.Nodup.append h (List.nodup_singleton _) ?_
        intro x hx hx2
        have hxp : x = p.id := List.mem_singleton.mp (by simpa [procIds] using hx2)
        exact hnot (hxp ▸ hsub x hx)
      · intro x hx
        rw [procIds_append] at hx
        rcases List.mem_append.mp hx with h1 | h2
        · exact List.mem_cons_of_mem _ (hsub x h1)
        · have hxp : x = p.id := List.mem_singleton.mp (by simpa [procIds] using h2)
          rw [hxp]
          exact List.mem_cons_self _ _

lemma unionLoop_ids_superset : ∀ (l : List Proc) (seen : List Int) (acc : List Proc),
    (∀ x ∈ seen, x ∈ procIds acc) →
    ∀ x, (x ∈ procIds acc ∨ x ∈ procIds l) → x ∈ procIds (unionLoop seen acc l) := by
  intro l
  induction l with
  | nil =>
    intro seen acc _ x hx
    rcases hx with h1 | h2
    · exact h1
    · exact absurd h2 (by simp [procIds])
  | cons p t ih =>
    intro seen acc hsub x hx
    unfold unionLoop
    split
    · next hin =>
      apply ih seen acc hsub
      rcases hx with h1 | h2
      · exact Or.inl h1
      · rcases (by simpa [procIds] using h2 : x = p.id ∨ x ∈ procIds t) with rfl | h3
        · exact Or.inl (hsub _ hin)
        · exact Or.inr h3
    · apply ih (p.id :: seen) (acc ++ [p])
      · intro y hy
        rw [procIds_append]
        rcases List.mem_cons.mp hy with rfl | hy2
        · exact List.mem_append.mpr (Or.inr (by simp [procIds]))
        · exact List.mem_append.mpr (Or.inl (hsub y hy2))
      · rcases hx with h1 | h2
        · refine Or.inl ?_
          rw [procIds_append]
          exact List.mem_append.mpr (Or.inl h1)
        · rcases (by simpa [procIds] using h2 : x = p.id ∨ x ∈ procIds t) with rfl | h3
          · refine Or.inl ?_
            rw [procIds_append]
            exact List.mem_append.mpr (Or.inr (by simp [procIds]))
          · exact Or.inr h3

lemma unionLoop_no_new : ∀ (l : List Proc) (seen : List Int) (acc : List Proc),
    (∀ p ∈ l, p.id ∈ seen) → unionLoop seen acc l = acc := by
  intro l
  induction l with
  | nil => intro seen acc _; rfl
  | cons p t ih =>
    intro seen acc h
    unfold unionLoop
    rw [if_pos (h p (List.mem_cons_self _ _))]
    exact ih seen acc (fun q hq => h q (List.mem_cons_of_mem _ hq))

/-! ## unionProcs lemmas -/

lemma unionProcs_sorted (a b : List Proc) : (unionProcs a b).Pairwise procLe :=
  List.sorted_insertionSort procLe _

lemma unionProcs_ids_nodup (a b : List Proc) : (procIds (unionProcs a b)).Nodup := by
  have hperm := List.Perm.map (fun p : Proc => p.id)
    (sortProcs_perm (unionLoop (procIds (normalize_procs_to_list a))
      (normalize_procs_to_list a) (normalize_procs_to_list b)))
  exact hperm.nodup_iff.mpr
    (unionLoop_ids_nodup _ _ _ (normalize_ids_nodup a) (fun _ hx => hx))

lemma mem_ids_unionProcs (a b : List Proc) :
    ∀ x ∈ procIds (normalize_procs_to_list b), x ∈ procIds (unionProcs a b) := by
  intro x hx
  have hperm := List.Perm.map (fun p : Proc => p.id)
    (sortProcs_perm (unionLoop (procIds (normalize_procs_to_list a))
      (normalize_procs_to_list a) (normalize_procs_to_list b)))
  exact hperm.mem_iff.mpr
    (unionLoop_ids_superset _ _ _ (fun y hy => hy) x (Or.inr hx))

lemma unionProcs_absorb {P b : List Proc}
    (hs : P.Pairwise procLe) (hn : (procIds P).Nodup)
    (hsub : ∀ x ∈ procIds (normalize_procs_to_list b), x ∈ procIds P) :
    unionProcs P b = P := by
  have h1 : unionProcs P b
      = sortProcs (unionLoop (procIds (normalize_procs_to_list P))
          (normalize_procs_to_list P) (normalize_procs_to_list b)) := rfl
  rw [h1, normalize_of_canonical hs hn, unionLoop_no_new _ _ _ ?_]
  · exact List.Sorted.insertionSort_eq hs
  · intro p hp
    apply hsub
    simp only [procIds, List.mem_map]
    exact ⟨p, hp, rfl⟩

lemma unionProcs_union_absorb (a b : List Proc) :
    unionProcs (unionProcs a b) b = unionProcs a b :=
  unionProcs_absorb (unionProcs_sorted a b) (unionProcs_ids_nodup a b) (mem_ids_unionProcs a b)

lemma unionProcs_normalize_absorb (b : List Proc) :
    unionProcs (normalize_procs_to_list b) b = normalize_procs_to_list b :=
  unionProcs_absorb (normalize_sorted b) (normalize_ids_nodup b) (fun _ hx => hx)

/-! ## Saturation of a single entry under repeated merge -/

lemma mergeInto_idem (f x : Contract) : mergeInto f (mergeInto f x) = mergeInto f x := by
  apply Contract.ext
  · rw [mergeInto_filename, mergeInto_filename]
  · simp only [mergeInto_name]
    cases f.name <;> rfl
  · simp only [mergeInto_label]
    by_cases hx : x.label = "" <;> simp [hx]
  · rw [mergeInto_github, mergeInto_github]
  · simp only [mergeInto_contract_index]
    cases f.contract_index <;> rfl
  · simp only [mergeInto_address]
    by_cases hf : f.address = "" <;> simp [hf]
  · simp only [mergeInto_procedures]
    exact unionProcs_union_absorb x.procedures f.procedures

lemma mergeInto_normalizeEntry (f : Contract) :
    mergeInto f (normalizeEntry f) = normalizeEntry f := by
  apply Contract.ext
  · rw [mergeInto_filename]
  · simp only [mergeInto_name]
    cases hn : f.name <;> simp [normalizeEntry, hn]
  · simp only [mergeInto_label]
    by_cases hl : f.label = "" <;> simp [normalizeEntry, hl]
  · rw [mergeInto_github]
  · simp only [mergeInto_contract_index]
    cases hc : f.contract_index <;> simp [normalizeEntry, hc]
  · simp only [mergeInto_address]
    by_cases hf : f.address = "" <;> simp [normalizeEntry, hf]
  · simp only [mergeInto_procedures]
    show unionProcs (normalize_procs_to_list f.procedures) f.procedures
        = normalize_procs_to_list f.procedures
    exact unionProcs_normalize_absorb f.procedures

/-! ## Merge-level lemmas -/

lemma normalizeEntry_filename (c : Contract) : (normalizeEntry c).filename = c.filename := rfl

lemma merge_cons (E : List Contract) (f : Contract) (F : List Contract) :
    merge_contracts E (f :: F) = merge_contracts (mergeOne E f) F := rfl

lemma distinct_mergeOne {acc : List Contract} {f : Contract} (h : distinctFilenames acc) :
    distinctFilenames (mergeOne acc f) := by
  cases hf : f.filename with
  | none => simpa only [mergeOne, hf] using h
  | some fname =>
    simp only [mergeOne, hf]
    split
    · show distinctFilenames (updateLast _ _ acc)
      unfold distinctFilenames
      rw [updateLast_filterMap (fun y => mergeInto_filename f y)]
      exact h
    · next hnot =>
      unfold distinctFilenames
      rw [List.filterMap_append]
      have h1 : ([normalizeEntry f].filterMap (fun c => c.filename)) = [fname] := by
        simp [List.filterMap_cons, normalizeEntry_filename, hf]
      rw [h1]
      refine List.Nodup.append h (List.nodup_singleton _) ?_
      intro x hx hx2
      have hxf : x = fname := List.mem_singleton.mp hx2
      obtain ⟨c, hc, hcs⟩ := List.mem_filterMap.mp (hxf ▸ hx)
      exact hnot ⟨c, hc, hcs⟩

lemma distinct_merge : ∀ (F E : List Contract), distinctFilenames E →
    distinctFilenames (merge_contracts E F) := by
  intro F
  induction F with
  | nil => intro E h; exact h
  | cons f0 Ftl ih =>
    intro E h
    rw [merge_cons]
    exact ih _ (distinct_mergeOne h)

lemma mem_merge_untouched {s : String} :
    ∀ (F E : List Contract), (∀ f ∈ F, f.filename ≠ some s) →
      ∀ x ∈ merge_contracts E F, x.filename = some s → x ∈ E := by
  intro F
  induction F with
  | nil => intro E _ x hx _; exact hx
  | cons f0 Ftl ih =>
    intro E hF x hx hxs
    rw [merge_cons] at hx
    have hx2 : x ∈ mergeOne E f0 :=
      ih (mergeOne E f0) (fun g hg => hF g (List.mem_cons_of_mem _ hg)) x hx hxs
    have hf0 : f0.filename ≠ some s := hF f0 (List.mem_cons_self _ _)
    cases hf : f0.filename with
    | none => simpa only [mergeOne, hf] using hx2
    | some g =>
      simp only [mergeOne, hf] at hx2
      split at hx2
      · rcases mem_updateLast hx2 with h1 | ⟨y, hy, hpy, hxy⟩
        · exact h1
        · exfalso
          have hxg : x.filename = some g := by
            rw [hxy, mergeInto_filename]
            exact hpy
          have hgs : some g = some s := hxg.symm.trans hxs
          exact hf0 (hf.trans hgs)
      · rcases List.mem_append.mp hx2 with h1 | h2
        · exact h1
        · exfalso
          have hxn : x = normalizeEntry f0 := List.mem_singleton.mp h2
          apply hf0
          rw [hf]
          rw [hxn, normalizeEntry_filename, hf] at hxs
          exact hxs

lemma filenames_merge_mono {s : String} :
    ∀ (F acc : List Contract), s ∈ acc.filterMap (fun c => c.filename) →
      s ∈ (merge_contracts acc F).filterMap (fun c => c.filename) := by
  intro F
  induction F with
  | nil => intro acc h; exact h
  | cons f0 Ftl ih =>
    intro acc h
    rw [merge_cons]
    apply ih
    cases hf : f0.filename with
    | none => simpa only [mergeOne, hf] using h
    | some g =>
      simp only [mergeOne, hf]
      split
      · show s ∈ (updateLast _ _ acc).filterMap (fun c => c.filename)
        rw [updateLast_filterMap (fun y => mergeInto_filename f0 y)]
        exact h
      · rw [List.filterMap_append]
        exact List.mem_append.mpr (Or.inl h)

lemma filenames_present {s : String} :
    ∀ (F E : List Contract) (f : Contract), f ∈ F → f.filename = some s →
      s ∈ (merge_contracts E F).filterMap (fun c => c.filename) := by
  intro F
  induction F with
  | nil => intro E f hf _; exact absurd hf (List.not_mem_nil f)
  | cons f0 Ftl ih =>
    intro E f hf hfs
    rw [merge_cons]
    rcases List.mem_cons.mp hf with rfl | hf2
    · apply filenames_merge_mono
      simp only [mergeOne, hfs]
      split
      · next hex =>
        show s ∈ (updateLast _ _ E).filterMap (fun c => c.filename)
        rw [updateLast_filterMap (fun y => mergeInto_filename f y)]
        obtain ⟨c, hc, hcs⟩ := hex
        exact List.mem_filterMap.mpr ⟨c, hc, hcs⟩
      · rw [List.filterMap_append]
        refine List.mem_append.mpr (Or.inr ?_)
        simp [List.filterMap_cons, normalizeEntry_filename, hfs]
    · exact ih (mergeOne E f0) f hf2 hfs

lemma mem_merge_of_not_touched {c : Contract} :
    ∀ (F acc : List Contract), c ∈ acc → (∀ f ∈ F, f.filename ≠ c.filename) →
      c ∈ merge_contracts acc F := by
  intro F
  induction F with
  | nil => intro acc h _; exact h
  | cons f0 Ftl ih =>
    intro acc hc hF
    rw [merge_cons]
    apply ih _ ?_ (fun g hg => hF g (List.mem_cons_of_mem _ hg))
    have hf0 : f0.filename ≠ c.filename := hF f0 (List.mem_cons_self _ _)
    cases hf : f0.filename with
    | none => simpa only [mergeOne, hf] using hc
    | some g =>
      simp only [mergeOne, hf]
      split
      · apply mem_updateLast_of_not hc
        intro hpc
        exact hf0 (by rw [hf, ← hpc])
      · exact List.mem_append.mpr (Or.inl hc)

/-! ## Claim C6: procedure extraction dedup and ordering -/

lemma dedupRegs_spec : ∀ (regs : List (Int × String)) (seen : List Int),
    ((dedupRegs seen regs).map (fun p => p.id)).Nodup ∧
    (∀ p ∈ dedupRegs seen regs, p.id ∉ seen ∧
      ∃ ident, regs.find? (fun r => decide (r.1 = p.id)) = some (p.id, ident) ∧
        p.name = pretty_procedure_name ident) ∧
    (∀ r ∈ regs, r.1 ∈ seen ∨ ∃ p ∈ dedupRegs seen regs, p.id = r.1) := by
  intro regs
  induction regs with
  | nil =>
    intro seen
    exact ⟨by simp [dedupRegs], by simp [dedupRegs], by simp⟩
  | cons r rest ih =>
    intro seen
    by_cases hmem : r.1 ∈ seen
    · have hd : dedupRegs seen (r :: rest) = dedupRegs seen rest := by
        simp [dedupRegs, hmem]
      obtain ⟨ih1, ih2, ih3⟩ := ih seen
      refine ⟨hd ▸ ih1, ?_, ?_⟩
      · intro p hp
        rw [hd] at hp
        obtain ⟨hpn, ident, hfind, hname⟩ := ih2 p hp
        refine ⟨hpn, ident, ?_, hname⟩
        rw [List.find?_cons_of_neg, hfind]
        simp only [decide_eq_true_eq]
        intro hc
        exact hpn (hc ▸ hmem)
      · intro q hq
        rcases List.mem_cons.mp hq with rfl | hq2
        · exact Or.inl hmem
        · rcases ih3 q hq2 with h1 | ⟨p, hp, hpq⟩
          · exact Or.inl h1
          · exact Or.inr ⟨p, by rw [hd]; exact hp, hpq⟩
    · have hd : dedupRegs seen (r :: rest)
          = { id := r.1, name := pretty_procedure_name r.2 } :: dedupRegs (r.1 :: seen) rest := by
        simp [dedupRegs, hmem]
      obtain ⟨ih1, ih2, ih3⟩ := ih (r.1 :: seen)
      refine ⟨?_, ?_, ?_⟩
      · rw [hd]
        simp only [List.map_cons, List.nodup_cons]
        refine ⟨?_, ih1⟩
        intro hc
        obtain ⟨p, hp, hpid⟩ := List.mem_map.mp hc
        exact (ih2 p hp).1 (by rw [hpid]; exact List.mem_cons_self _ _)
      · intro p hp
        rw [hd] at hp
        rcases List.mem_cons.mp hp with rfl | hp2
        · refine ⟨hmem, r.2, ?_, rfl⟩
          rw [List.find?_cons_of_pos]
          simp
        · obtain ⟨hpn, ident, hfind, hname⟩ := ih2 p hp2
          have hne : p.id ≠ r.1 := fun hc => hpn (hc ▸ List.mem_cons_self _ _)
          refine ⟨fun hc => hpn (List.mem_cons_of_mem _ hc), ident, ?_, hname⟩
          rw [List.find?_cons_of_neg, hfind]
          simp only [decide_eq_true_eq]
          intro hc
          exact hne hc.symm
      · intro q hq
        rcases List.mem_cons.mp hq with rfl | hq2
        · exact Or.inr ⟨_, by rw [hd]; exact List.mem_cons_self _ _, rfl⟩
        · rcases ih3 q hq2 with h1 | ⟨p, hp, hpq⟩
          · rcases List.mem_cons.mp h1 with h2 | h3
            · exact Or.inr ⟨_, by rw [hd]; exact List.mem_cons_self _ _, h2.symm⟩
            · exact Or.inl h3
          · exact Or.inr ⟨p, by rw [hd]; exact List.mem_cons_of_mem _ hp, hpq⟩

/-- C6: the extracted procedure list is built from the registration-call
matches in textual order: ids are pairwise distinct and strictly
ascending, the name kept for each id is the pretty-printed identifier of
the FIRST match with that id, and every match id appears in the output. -/
theorem procedure_dedup_sorted (regs : List (Int × String)) :
    (extractProcs regs).Pairwise (fun p q => p.id < q.id) ∧
    (∀ p ∈ extractProcs regs,
      (regs.find? (fun r => decide (r.1 = p.id))).map (fun r => pretty_procedure_name r.2)
        = some p.name) ∧
    (∀ r ∈ regs, ∃ p ∈ extractProcs regs, p.id = r.1) := by
  obtain ⟨h1, h2, h3⟩ := dedupRegs_spec regs []
  have hperm : List.Perm (extractProcs regs) (dedupRegs [] regs) :=
    List.perm_insertionSort procLe _
  refine ⟨?_, ?_, ?_⟩
  · have hsorted : (extractProcs regs).Pairwise procLe :=
      List.sorted_insertionSort procLe _
    have hne : (extractProcs regs).Pairwise (fun p q => p.id ≠ q.id) := by
      have hbase : (dedupRegs [] regs).Pairwise (fun p q => p.id ≠ q.id) := by
        simpa [List.Nodup, List.pairwise_map] using h1
      exact (hperm.pairwise_iff (fun h => Ne.symm h)).mpr hbase
    exact (hsorted.and hne).imp (fun h => lt_of_le_of_ne h.1 h.2)
  · intro p hp
    have hp2 : p ∈ dedupRegs [] regs := hperm.mem_iff.mp hp
    obtain ⟨-, ident, hfind, hname⟩ := h2 p hp2
    rw [hfind, hname]
    rfl
  · intro r hr
    rcases h3 r hr with h0 | ⟨p, hp, hpq⟩
    · exact absurd h0 (List.not_mem_nil _)
    · exact ⟨p, hperm.mem_iff.mpr hp, hpq⟩

/-- C6 witness at a concrete match list with a duplicated id. -/
theorem procedure_dedup_sorted_witness :
    ((extractProcs demoRegs).Pairwise (fun p q => p.id < q.id)) ∧
    ((demoRegs.find? (fun r => decide (r.1 = (2 : Int)))).map
        (fun r => pretty_procedure_name r.2) = some "Do Stuff") ∧
    (∃ p ∈ extractProcs demoRegs, p.id = (1 : Int)) :=
  ⟨(procedure_dedup_sorted demoRegs).1,
   (procedure_dedup_sorted demoRegs).2.1 ⟨2, "Do Stuff"⟩ (by decide),
   (procedure_dedup_sorted demoRegs).2.2 (1, "fooBar") (by decide)⟩

/-! ## Claim C7: persisted entries are never deleted -/

/-- C7: a persisted descriptor whose filename does not occur in the fresh
list is still present, verbatim, in the merged and sorted output. -/
theorem merge_never_deletes (existing fresh : List Contract) (c : Contract)
    (hc : c ∈ existing) (h : ∀ f ∈ fresh, f.filename ≠ c.filename) :
    c ∈ sort_contracts (merge_contracts existing fresh) :=
  (List.mem_insertionSort contractLe).mpr (mem_merge_of_not_touched fresh existing hc h)

/-- C7 witness: a persisted entry untouched by a fresh run with a
different filename survives merge and sort unchanged. -/
theorem merge_never_deletes_witness :
    persistedDemo ∈ sort_contracts (merge_contracts [persistedDemo] [freshOther]) :=
  merge_never_deletes [persistedDemo] [freshOther] persistedDemo (by decide) (by decide)

/-! ## Claim C9: merge preserves filename uniqueness -/

/-- C9: if the persisted collection has pairwise-distinct string
filenames then so does the merged output, for every fresh list. -/
theorem merge_filename_unique (existing fresh : List Contract)
    (h : distinctFilenames existing) :
    distinctFilenames (merge_contracts existing fresh) :=
  distinct_merge fresh existing h

/-- C9 witness: merging one updating and one new fresh entry keeps the
filenames pairwise distinct. -/
theorem merge_filename_unique_witness :
    distinctFilenames (merge_contracts [persistedDemo] [freshDemoQx, freshOther]) :=
  merge_filename_unique [persistedDemo] [freshDemoQx, freshOther] (by decide)

/-! ## Claim C3: manual labels win -/

lemma merge_label_inv {fname lbl : String} (hlbl : lbl ≠ "") :
    ∀ (F acc : List Contract),
      fname ∈ acc.filterMap (fun c => c.filename) →
      (∀ c ∈ acc, c.filename = some fname → c.label = lbl) →
      ∀ c ∈ merge_contracts acc F, c.filename = some fname → c.label = lbl := by
  intro F
  induction F with
  | nil => intro acc _ hlab c hc hcf; exact hlab c hc hcf
  | cons f0 Ftl ih =>
    intro acc hpres hlab c hc hcf
    rw [merge_cons] at hc
    refine ih (mergeOne acc f0) ?_ ?_ c hc hcf
    · cases hf : f0.filename with
      | none => simpa only [mergeOne, hf] using hpres
      | some g =>
        simp only [mergeOne, hf]
        split
        · show fname ∈ (updateLast _ _ acc).filterMap (fun c => c.filename)
          rw [updateLast_filterMap (fun y => mergeInto_filename f0 y)]
          exact hpres
        · rw [List.filterMap_append]
          exact List.mem_append.mpr (Or.inl hpres)
    · intro x hx hxf
      cases hf : f0.filename with
      | none =>
        simp only [mergeOne, hf] at hx
        exact hlab x hx hxf
      | some g =>
        simp only [mergeOne, hf] at hx
        split at hx
        · rcases mem_updateLast hx with h1 | ⟨y, hy, hpy, hxy⟩
          · exact hlab x h1 hxf
          · have hxg : x.filename = some g := by
              rw [hxy, mergeInto_filename]
              exact hpy
            have hg : g = fname := Option.some.inj (hxg.symm.trans hxf)
            have hyl : y.label = lbl := hlab y hy (hg ▸ hpy)
            rw [hxy, mergeInto_label, hyl, if_neg hlbl]
        · next hnot =>
          rcases List.mem_append.mp hx with h1 | h2
          · exact hlab x h1 hxf
          · exfalso
            have hxn : x = normalizeEntry f0 := List.mem_singleton.mp h2
            have hxg : x.filename = some g := by
              rw [hxn, normalizeEntry_filename, hf]
            have hg : g = fname := Option.some.inj (hxg.symm.trans hxf)
            obtain ⟨e, he, hes⟩ := List.mem_filterMap.mp hpres
            exact hnot ⟨e, he, by rw [hg]; exact hes⟩

/-- C3: a persisted entry with a non-empty label keeps that exact label
through the whole merge (every merged entry with that filename carries
it), and the fresh label is written into an existing entry exactly when
the persisted label is empty. -/
theorem merge_preserves_manual_label (existing fresh : List Contract) (ex : Contract)
    (fname : String) (hdist : distinctFilenames existing) (hex : ex ∈ existing)
    (hfn : ex.filename = some fname) :
    (∀ c ∈ merge_contracts existing fresh, c.filename = some fname →
      ex.label ≠ "" → c.label = ex.label) ∧
    (∀ new : Contract, (mergeInto new ex).label
      = if ex.label = "" then new.label else ex.label) := by
  constructor
  · intro c hc hcf hlbl
    refine merge_label_inv hlbl fresh existing ?_ ?_ c hc hcf
    · exact List.mem_filterMap.mpr ⟨ex, hex, hfn⟩
    · intro y hy hyf
      rw [eq_of_distinct_filename hdist hy hex hyf hfn]
  · intro new
    exact mergeInto_label new ex

/-- C3 witness: the persisted manual label Custom survives a fresh entry
carrying a different computed label for the same filename. -/
theorem merge_preserves_manual_label_witness :
    (mergeInto freshDemoQx persistedDemo).label = persistedDemo.label :=
  (merge_preserves_manual_label [persistedDemo] [freshDemoQx] persistedDemo "Qx.h"
      (by decide) (by decide) (by decide)).1
    (mergeInto freshDemoQx persistedDemo) (by decide) (by decide) (by decide)

/-! ## Claim C4: idempotence of the merge -/

lemma sat_merge :
    ∀ (F E : List Contract), distinctFilenames E →
      (∀ f ∈ F, f.filename ≠ none) → (F.map (fun c => c.filename)).Nodup →
      ∀ f ∈ F, ∀ x ∈ merge_contracts E F, x.filename = f.filename → mergeInto f x = x := by
  intro F
  induction F with
  | nil => intro E _ _ _ f hf; exact absurd hf (List.not_mem_nil f)
  | cons f0 Ftl ih =>
    intro E hE hsome hnd f hf x hx hxf
    rw [merge_cons] at hx
    rcases List.mem_cons.mp hf with rfl | hf2
    · obtain ⟨s, hs⟩ : ∃ s, f.filename = some s := by
        cases hfs : f.filename with
        | none => exact absurd hfs (hsome f (List.mem_cons_self _ _))
        | some s => exact ⟨s, rfl⟩
      have hFtl : ∀ g ∈ Ftl, g.filename ≠ some s := by
        intro g hg hc
        apply (List.nodup_cons.mp hnd).1
        show f.filename ∈ List.map (fun c => c.filename) Ftl
        rw [hs, ← hc]
        exact List.mem_map_of_mem (fun c => c.filename) hg
      have hx2 : x ∈ mergeOne E f :=
        mem_merge_untouched Ftl (mergeOne E f) hFtl x hx (hxf.trans hs)
      simp only [mergeOne, hs] at hx2
      split at hx2
      · rw [updateLast_eq_map (countP_filename_le_one hE)] at hx2
        obtain ⟨y, hy, hxy⟩ := List.mem_map.mp hx2
        by_cases hpy : y.filename = some s
        · rw [if_pos hpy] at hxy
          rw [← hxy]
          exact mergeInto_idem f y
        · rw [if_neg hpy] at hxy
          exact absurd (hxy ▸ (hxf.trans hs)) hpy
      · next hnot =>
        rcases List.mem_append.mp hx2 with h1 | h2
        · exact absurd ⟨x, h1, hxf.trans hs⟩ hnot
        · rw [List.mem_singleton.mp h2]
          exact mergeInto_normalizeEntry f
    · exact ih (mergeOne E f0) (distinct_mergeOne hE)
        (fun g hg => hsome g (List.mem_cons_of_mem _ hg))
        (List.nodup_cons.mp hnd).2 f hf2 x hx hxf

lemma merge_self_eq {M : List Contract} :
    ∀ (F : List Contract),
      (∀ f ∈ F, ∀ x ∈ M, x.filename = f.filename → mergeInto f x = x) →
      (∀ f ∈ F, ∀ s, f.filename = some s → ∃ c ∈ M, c.filename = some s) →
      merge_contracts M F = M := by
  intro F
  induction F with
  | nil => intro _ _; rfl
  | cons f0 Ftl ih =>
    intro hsat hpres
    rw [merge_cons]
    have hone : mergeOne M f0 = M := by
      cases hf : f0.filename with
      | none => simp only [mergeOne, hf]
      | some s =>
        simp only [mergeOne, hf]
        rw [if_pos (hpres f0 (List.mem_cons_self _ _) s hf)]
        apply updateLast_eq_self
        intro x hx hpx
        exact hsat f0 (List.mem_cons_self _ _) x hx (hpx.trans hf.symm)
    rw [hone]
    exact ih (fun g hg => hsat g (List.mem_cons_of_mem _ hg))
      (fun g hg => hpres g (List.mem_cons_of_mem _ hg))

/-- C4: merging a pipeline-shaped fresh list into the sorted result of
merging it into a persisted collection (whose filenames are unique, the
stated data-model invariant) and re-sorting reproduces that result
exactly: no duplicate procedures, no field changes. -/
theorem merge_idempotent (E F : List Contract)
    (hE : distinctFilenames E) (hF : pipelineShaped F) :
    sort_contracts (merge_contracts (sort_contracts (merge_contracts E F)) F)
      = sort_contracts (merge_contracts E F) := by
  obtain ⟨hnd, hfield⟩ := hF
  have hsome : ∀ f ∈ F, f.filename ≠ none := fun f hf => (hfield f hf).1
  have hperm : List.Perm (sort_contracts (merge_contracts E F)) (merge_contracts E F) :=
    List.perm_insertionSort contractLe _
  have hsat0 := sat_merge F E hE hsome hnd
  have hsat : ∀ f ∈ F, ∀ x ∈ sort_contracts (merge_contracts E F),
      x.filename = f.filename → mergeInto f x = x := by
    intro f hf x hx hxf
    exact hsat0 f hf x (hperm.mem_iff.mp hx) hxf
  have hpres : ∀ f ∈ F, ∀ s, f.filename = some s →
      ∃ c ∈ sort_contracts (merge_contracts E F), c.filename = some s := by
    intro f hf s hfs
    obtain ⟨c, hc, hcs⟩ := List.mem_filterMap.mp (filenames_present F E f hf hfs)
    exact ⟨c, hperm.mem_iff.mpr hc, hcs⟩
  rw [merge_self_eq F hsat hpres]
  exact List.Sorted.insertionSort_eq (List.sorted_insertionSort contractLe _)

/-- C4 witness: a concrete persisted collection and pipeline-shaped fresh
list merged twice give the same document. -/
theorem merge_idempotent_witness :
    sort_contracts (merge_contracts (sort_contracts (merge_contracts [persistedDemo] [freshDemo]))
        [freshDemo])
      = sort_contracts (merge_contracts [persistedDemo] [freshDemo]) :=
  merge_idempotent [persistedDemo] [freshDemo] (by decide) (by decide)

end StaticApi
